import Mathlib

/-!
Shallow embedding of the support routines of GNU diffutils, `src/util.c`,
together with theorems settling the specification claims about them.

Conventions of the embedding:
* A line of an input file is a `List Char`, one element per glyph scanned by
  `mcel_scan` (single-byte characters in the ASCII case), without the final
  newline byte; the C line buffers are modelled as total functions
  `Nat → List Char` from internal line indices to line contents.
* Byte strings handled by the `--palette` machinery are `List Nat`
  (byte values); the terminating NUL of a C string is the end of the list.
* Machine integers of type `lin` / `idx_t` are modelled as `Int` / `Nat`;
  `char` arithmetic in the palette parser is reduced modulo 256 explicitly.
-/

namespace Diffutils

/-- One edit-script node (`struct change`): a run of `deleted` lines of file 0
starting at internal index `line0` replaced by `inserted` lines of file 1
starting at `line1`.  The `link` pointer of the C struct is represented by
list structure (a hunk is a head change plus the list of linked changes). -/
structure Change where
  line0 : Nat
  line1 : Nat
  deleted : Nat
  inserted : Nat
deriving Repr, DecidableEq

/-- Result classification of `analyze_hunk` (`enum changes` of diff.h). -/
inductive Changes where
  | UNCHANGED
  | OLD
  | NEW
  | CHANGED
deriving Repr, DecidableEq

/-- Modelled from the spec: the `DIFF_white_space` enumeration is declared in
diff.h, which is not under src/; util.c only compares it with `<=`.  The
folding modes are ordered none < trailing < space-change < all, encoded as
the naturals 0, 1, 2, 3. -/
def IGNORE_TRAILING_SPACE : Nat := 1

/-- Modelled from the spec: see `IGNORE_TRAILING_SPACE`. -/
def IGNORE_SPACE_CHANGE : Nat := 2

/-- The line-comparison options read by `analyze_hunk` (util.c:1246-1254):
`ignore_blank_lines` (-B), whether `ignore_regexp.fastmap` is non-null
(a -I pattern is in effect), and the `ignore_white_space` mode. -/
structure IgnoreOpts where
  ignore_blank_lines : Bool
  ignore_regexp_active : Bool
  ignore_white_space : Nat
deriving Repr, DecidableEq

/-- Model of `c32isspace` restricted to the single-byte characters that can
occur inside a line. -/
def isSpaceChar (c : Char) : Bool :=
  c = ' ' || c = '\t' || c = '\n' || c = Char.ofNat 11 || c = Char.ofNat 12
    || c = '\r'

/-- The leading-whitespace scan of `analyze_hunk` (util.c:1280-1292): when
`skipWS` holds, advance `p` over whitespace; on the first non-space glyph
reset `p` to the start of the line unless `skipLeading` holds; if the scan
reaches the end of the line, `p` stays there.  Returns the content from the
final `p` to the end of the line. -/
def foldLine (skipWS skipLeading : Bool) (l : List Char) : List Char :=
  if skipWS then
    let rest := l.dropWhile isSpaceChar
    if rest.isEmpty then rest
    else if skipLeading then rest else l
  else l

/-- The value `trivial_length` of util.c:1247: `ignore_blank_lines - 1`,
so 0 when blank lines are ignored and -1 (matching no length) otherwise. -/
def trivial_length (ignore_blank_lines : Bool) : Int :=
  (if ignore_blank_lines then (1 : Int) else 0) - 1

/-- An abstract regular-expression matcher standing for `ignore_regexp`:
`m l i j` holds when some match of the configured pattern spans exactly
positions `i` (inclusive) to `j` (exclusive) of the line `l`. -/
abbrev Matcher := List Char → Nat → Nat → Bool

/-- Model of `re_search (&ignore_regexp, line, len, 0, len, nullptr) >= 0`
(util.c:1295, 1321): some match of the pattern lies somewhere within the
line (any start, any extent inside the buffer). -/
def reSearchFound (m : Matcher) (l : List Char) : Bool :=
  (List.range (l.length + 1)).any fun i =>
    (List.range (l.length + 1)).any fun j => decide (i ≤ j) && m l i j

/-- The per-line triviality test of `analyze_hunk` (util.c:1274-1298): the
line keeps the hunk trivial iff the content remaining after the whitespace
scan has length `trivial_length`, or a -I pattern is active and `re_search`
finds a match somewhere in the raw line. -/
def lineIgnorable (o : IgnoreOpts) (m : Matcher) (l : List Char) : Bool :=
  let skipWS := o.ignore_blank_lines
    && decide (IGNORE_TRAILING_SPACE ≤ o.ignore_white_space)
  let skipLeading := skipWS
    && decide (IGNORE_SPACE_CHANGE ≤ o.ignore_white_space)
  decide (((foldLine skipWS skipLeading l).length : Int)
      = trivial_length o.ignore_blank_lines)
    || (o.ignore_regexp_active && reSearchFound m l)

/-- Internal indices of the file-0 lines deleted by one change
(`line0 .. line0 + deleted - 1`). -/
def changeLines0 (c : Change) : List Nat :=
  (List.range c.deleted).map fun k => c.line0 + k

/-- Internal indices of the file-1 lines inserted by one change. -/
def changeLines1 (c : Change) : List Nat :=
  (List.range c.inserted).map fun k => c.line1 + k

/-- Whether every deleted and inserted line of one change is ignorable. -/
def changeIgnorable (o : IgnoreOpts) (m : Matcher)
    (lb0 lb1 : Nat → List Char) (c : Change) : Bool :=
  (changeLines0 c).all (fun i => lineIgnorable o m (lb0 i))
    && (changeLines1 c).all (fun i => lineIgnorable o m (lb1 i))

/-- Loop state of `analyze_hunk`: the running `trivial`, `show_from`,
`show_to` accumulators and the `l0`, `l1` values of the latest change. -/
structure HunkState where
  trivial : Bool
  show_from : Nat
  show_to : Nat
  l0 : Int
  l1 : Int
deriving Repr, DecidableEq

/-- One iteration of the do-while loop of `analyze_hunk`
(util.c:1267-1326) on the change `c`. -/
def analyzeChange (o : IgnoreOpts) (m : Matcher) (lb0 lb1 : Nat → List Char)
    (st : HunkState) (c : Change) : HunkState :=
  { trivial := st.trivial && changeIgnorable o m lb0 lb1 c,
    show_from := st.show_from + c.deleted,
    show_to := st.show_to + c.inserted,
    l0 := (c.line0 : Int) + (c.deleted : Int) - 1,
    l1 := (c.line1 : Int) + (c.inserted : Int) - 1 }

/-- The outputs of `analyze_hunk`: the returned classification and the
values stored through `first0`, `last0`, `first1`, `last1`. -/
structure AnalyzeResult where
  value : Changes
  first0 : Int
  last0 : Int
  first1 : Int
  last1 : Int
deriving Repr, DecidableEq

/-- `analyze_hunk` (util.c:1241-1338) on a hunk given as its head change
`first` and the chain `rest` linked behind it.  `lb0` and `lb1` are the two
line buffers (`curr.file[f].linbuf`). -/
def analyze_hunk (o : IgnoreOpts) (m : Matcher) (lb0 lb1 : Nat → List Char)
    (first : Change) (rest : List Change) : AnalyzeResult :=
  let init : HunkState :=
    { trivial := o.ignore_blank_lines || o.ignore_regexp_active,
      show_from := 0, show_to := 0, l0 := 0, l1 := 0 }
  let st := (first :: rest).foldl (analyzeChange o m lb0 lb1) init
  { value :=
      if st.trivial then Changes.UNCHANGED
      else if 0 < st.show_from then
        if 0 < st.show_to then Changes.CHANGED else Changes.OLD
      else if 0 < st.show_to then Changes.NEW
      else Changes.UNCHANGED,
    first0 := (first.line0 : Int), last0 := st.l0,
    first1 := (first.line1 : Int), last1 := st.l1 }

/-- Whether every deleted and inserted line of the hunk is ignorable under
the active ignore rules (with no rules active, no line is ignorable). -/
def hunkAllIgnorable (o : IgnoreOpts) (m : Matcher)
    (lb0 lb1 : Nat → List Char) (first : Change) (rest : List Change) : Bool :=
  (first :: rest).all (changeIgnorable o m lb0 lb1)

/-- Total number of file-0 lines the hunk deletes. -/
def hunkDeleted (first : Change) (rest : List Change) : Nat :=
  ((first :: rest).map Change.deleted).sum

/-- Total number of file-1 lines the hunk inserts. -/
def hunkInserted (first : Change) (rest : List Change) : Nat :=
  ((first :: rest).map Change.inserted).sum

theorem foldl_analyzeChange_trivial (o : IgnoreOpts) (m : Matcher)
    (lb0 lb1 : Nat → List Char) (cs : List Change) (st : HunkState) :
    (cs.foldl (analyzeChange o m lb0 lb1) st).trivial
      = (st.trivial && cs.all (changeIgnorable o m lb0 lb1)) := by
  induction cs generalizing st with
  | nil => simp
  | cons c cs ih => simp [analyzeChange, ih, Bool.and_assoc]

theorem foldl_analyzeChange_show_from (o : IgnoreOpts) (m : Matcher)
    (lb0 lb1 : Nat → List Char) (cs : List Change) (st : HunkState) :
    (cs.foldl (analyzeChange o m lb0 lb1) st).show_from
      = st.show_from + (cs.map Change.deleted).sum := by
  induction cs generalizing st with
  | nil => simp
  | cons c cs ih => simp [analyzeChange, ih]; omega

theorem foldl_analyzeChange_show_to (o : IgnoreOpts) (m : Matcher)
    (lb0 lb1 : Nat → List Char) (cs : List Change) (st : HunkState) :
    (cs.foldl (analyzeChange o m lb0 lb1) st).show_to
      = st.show_to + (cs.map Change.inserted).sum := by
  induction cs generalizing st with
  | nil => simp
  | cons c cs ih => simp [analyzeChange, ih]; omega

/-- With neither -B nor a -I pattern active, no line is ignorable. -/
theorem lineIgnorable_no_rules (o : IgnoreOpts) (m : Matcher) (l : List Char)
    (hb : o.ignore_blank_lines = false) (hr : o.ignore_regexp_active = false) :
    lineIgnorable o m l = false := by
  simp [lineIgnorable, hb, hr, foldLine, trivial_length]

/-- A change whose deleted and inserted lines are all ignorable under no
active rules must delete and insert nothing. -/
theorem changeIgnorable_no_rules (o : IgnoreOpts) (m : Matcher)
    (lb0 lb1 : Nat → List Char) (c : Change)
    (hb : o.ignore_blank_lines = false) (hr : o.ignore_regexp_active = false)
    (h : changeIgnorable o m lb0 lb1 c = true) :
    c.deleted = 0 ∧ c.inserted = 0 := by
  simp only [changeIgnorable, Bool.and_eq_true, List.all_eq_true] at h
  constructor
  · by_contra hd
    have hmem : c.line0 ∈ changeLines0 c := by
      simp [changeLines0]
      omega
    have := h.1 _ hmem
    rw [lineIgnorable_no_rules o m _ hb hr] at this
    exact Bool.false_ne_true this
  · by_contra hd
    have hmem : c.line1 ∈ changeLines1 c := by
      simp [changeLines1]
      omega
    have := h.2 _ hmem
    rw [lineIgnorable_no_rules o m _ hb hr] at this
    exact Bool.false_ne_true this

/-- A change that is not all-ignorable has at least one deleted or
inserted line. -/
theorem changeIgnorable_false_pos (o : IgnoreOpts) (m : Matcher)
    (lb0 lb1 : Nat → List Char) (c : Change)
    (h : changeIgnorable o m lb0 lb1 c = false) :
    0 < c.deleted + c.inserted := by
  by_contra hpos
  have hd : c.deleted = 0 := by omega
  have hi : c.inserted = 0 := by omega
  simp [changeIgnorable, changeLines0, changeLines1, hd, hi] at h

/-- Computation lemma: the value `analyze_hunk` returns, expressed through
the initial `trivial` flag and the deletion/insertion totals. -/
theorem analyze_hunk_value (o : IgnoreOpts) (m : Matcher)
    (lb0 lb1 : Nat → List Char) (first : Change) (rest : List Change) :
    (analyze_hunk o m lb0 lb1 first rest).value
      = (if (o.ignore_blank_lines || o.ignore_regexp_active)
            && hunkAllIgnorable o m lb0 lb1 first rest then Changes.UNCHANGED
         else if 0 < hunkDeleted first rest then
           (if 0 < hunkInserted first rest then Changes.CHANGED
            else Changes.OLD)
         else if 0 < hunkInserted first rest then Changes.NEW
         else Changes.UNCHANGED) := by
  simp only [analyze_hunk, hunkAllIgnorable, hunkDeleted, hunkInserted]
  rw [foldl_analyzeChange_trivial, foldl_analyzeChange_show_from,
    foldl_analyzeChange_show_to]
  simp

/-- If some change of the hunk is not all-ignorable, then the hunk deletes
or inserts at least one line. -/
theorem hunkAllIgnorable_false_pos (o : IgnoreOpts) (m : Matcher)
    (lb0 lb1 : Nat → List Char) (first : Change) (rest : List Change)
    (hall : hunkAllIgnorable o m lb0 lb1 first rest = false) :
    0 < hunkDeleted first rest + hunkInserted first rest := by
  have hex : ∃ c ∈ first :: rest, changeIgnorable o m lb0 lb1 c = false := by
    by_contra hc
    push_neg at hc
    have hT : (first :: rest).all (changeIgnorable o m lb0 lb1) = true := by
      rw [List.all_eq_true]
      intro c hmem
      rcases Bool.eq_false_or_eq_true (changeIgnorable o m lb0 lb1 c) with h | h
      · exact h
      · exact ((hc c hmem) h).elim
    rw [hunkAllIgnorable, hT] at hall
    cases hall
  obtain ⟨c, hc, hcf⟩ := hex
  have hcpos := changeIgnorable_false_pos o m lb0 lb1 c hcf
  have hdel : c.deleted ≤ hunkDeleted first rest :=
    List.single_le_sum (by intro x _; omega) _
      (List.mem_map.mpr ⟨c, hc, rfl⟩)
  have hins : c.inserted ≤ hunkInserted first rest :=
    List.single_le_sum (by intro x _; omega) _
      (List.mem_map.mpr ⟨c, hc, rfl⟩)
  omega

/-- If every change of the hunk is all-ignorable while no ignore rule is
active, the hunk deletes and inserts nothing. -/
theorem hunkAllIgnorable_no_rules (o : IgnoreOpts) (m : Matcher)
    (lb0 lb1 : Nat → List Char) (first : Change) (rest : List Change)
    (hb : o.ignore_blank_lines = false) (hr : o.ignore_regexp_active = false)
    (hall : hunkAllIgnorable o m lb0 lb1 first rest = true) :
    hunkDeleted first rest = 0 ∧ hunkInserted first rest = 0 := by
  rw [hunkAllIgnorable, List.all_eq_true] at hall
  have hzero : ∀ c ∈ first :: rest, c.deleted = 0 ∧ c.inserted = 0 := by
    intro c hmem
    exact changeIgnorable_no_rules o m lb0 lb1 c hb hr (hall c hmem)
  constructor
  · rw [hunkDeleted, List.sum_eq_zero_iff]
    intro x hx
    obtain ⟨c, hmem, hcx⟩ := List.mem_map.mp hx
    rw [← hcx]
    exact (hzero c hmem).1
  · rw [hunkInserted, List.sum_eq_zero_iff]
    intro x hx
    obtain ⟨c, hmem, hcx⟩ := List.mem_map.mp hx
    rw [← hcx]
    exact (hzero c hmem).2

/-- C1.  `analyze_hunk` returns `UNCHANGED` exactly when every deleted and
inserted line of the hunk is ignorable under the active ignore rules;
otherwise it returns `OLD` when the hunk deletes at least one line and
inserts none, `NEW` when it inserts at least one line and deletes none, and
`CHANGED` when it both deletes and inserts. -/
theorem analyze_hunk_classifies (o : IgnoreOpts) (m : Matcher)
    (lb0 lb1 : Nat → List Char) (first : Change) (rest : List Change) :
    (analyze_hunk o m lb0 lb1 first rest).value
      = (if hunkAllIgnorable o m lb0 lb1 first rest then Changes.UNCHANGED
         else if 0 < hunkDeleted first rest ∧ hunkInserted first rest = 0 then
           Changes.OLD
         else if 0 < hunkInserted first rest ∧ hunkDeleted first rest = 0 then
           Changes.NEW
         else Changes.CHANGED) := by
  rw [analyze_hunk_value]
  cases hall : hunkAllIgnorable o m lb0 lb1 first rest with
  | true =>
    simp only [hall, Bool.and_true, if_pos rfl]
    by_cases hbr : (o.ignore_blank_lines || o.ignore_regexp_active) = true
    · simp [hbr]
    · simp only [Bool.or_eq_true, not_or, Bool.not_eq_true] at hbr
      obtain ⟨hb, hr⟩ := hbr
      obtain ⟨hD, hI⟩ := hunkAllIgnorable_no_rules o m lb0 lb1 first rest
        hb hr hall
      simp [hb, hr, hD, hI]
  | false =>
    have hpos := hunkAllIgnorable_false_pos o m lb0 lb1 first rest hall
    simp only [hall, Bool.and_false, Bool.false_eq_true, if_false]
    rcases Nat.eq_zero_or_pos (hunkDeleted first rest) with hD | hD <;>
      rcases Nat.eq_zero_or_pos (hunkInserted first rest) with hI | hI
    · omega
    · simp [hD, hI]
    · simp [hD, hI]
    · simp [hD, hI, Nat.pos_iff_ne_zero.mp hD, Nat.pos_iff_ne_zero.mp hI]

/-- The two comparison outcomes relevant to the triviality filter.  The
`trouble` verdict concerns I/O failures outside this model. -/
inductive Verdict where
  | identical
  | different
deriving Repr, DecidableEq

/-- Modelled from the spec: the caller-side verdict logic (diff.c) is not
under src/.  Per the spec, a hunk classified `UNCHANGED` by `analyze_hunk`
is dropped from the output and from the files-differ verdict, and the
comparison reports `identical` when no other hunks remain. -/
def comparisonVerdict (o : IgnoreOpts) (m : Matcher)
    (lb0 lb1 : Nat → List Char) (hunks : List (Change × List Change)) :
    Verdict :=
  if hunks.all (fun h =>
      decide ((analyze_hunk o m lb0 lb1 h.1 h.2).value = Changes.UNCHANGED))
  then Verdict.identical else Verdict.different

/-- Every line of an all-blank hunk is ignorable when -B is active:
a blank line has empty content, which folds to length 0 = trivial_length. -/
theorem changeIgnorable_of_blank (o : IgnoreOpts) (m : Matcher)
    (lb0 lb1 : Nat → List Char) (c : Change)
    (hb : o.ignore_blank_lines = true)
    (h0 : ∀ i ∈ changeLines0 c, lb0 i = [])
    (h1 : ∀ i ∈ changeLines1 c, lb1 i = []) :
    changeIgnorable o m lb0 lb1 c = true := by
  have hline : ∀ l : List Char, l = [] → lineIgnorable o m l = true := by
    intro l hl
    subst hl
    simp [lineIgnorable, foldLine, trivial_length, hb]
  rw [changeIgnorable, Bool.and_eq_true]
  constructor
  · rw [List.all_eq_true]
    intro i hi
    exact hline _ (h0 i hi)
  · rw [List.all_eq_true]
    intro i hi
    exact hline _ (h1 i hi)

/-- C2.  With ignore-blank-lines active, a hunk whose deleted and inserted
lines are all blank is classified `UNCHANGED` by `analyze_hunk`; when every
hunk is such, the comparison verdict is `identical`. -/
theorem all_blank_hunks_identical (o : IgnoreOpts) (m : Matcher)
    (lb0 lb1 : Nat → List Char) (hunks : List (Change × List Change))
    (hb : o.ignore_blank_lines = true)
    (hblank : ∀ h ∈ hunks, ∀ c ∈ h.1 :: h.2,
      (∀ i ∈ changeLines0 c, lb0 i = []) ∧ (∀ i ∈ changeLines1 c, lb1 i = [])) :
    (∀ h ∈ hunks,
      (analyze_hunk o m lb0 lb1 h.1 h.2).value = Changes.UNCHANGED) ∧
    comparisonVerdict o m lb0 lb1 hunks = Verdict.identical := by
  have hunch : ∀ h ∈ hunks,
      (analyze_hunk o m lb0 lb1 h.1 h.2).value = Changes.UNCHANGED := by
    intro h hmem
    rw [analyze_hunk_value]
    have hall : hunkAllIgnorable o m lb0 lb1 h.1 h.2 = true := by
      rw [hunkAllIgnorable, List.all_eq_true]
      intro c hc
      exact changeIgnorable_of_blank o m lb0 lb1 c hb
        ((hblank h hmem) c hc).1 ((hblank h hmem) c hc).2
    simp [hall, hb]
  refine ⟨hunch, ?_⟩
  rw [comparisonVerdict, if_pos]
  rw [List.all_eq_true]
  intro h hmem
  simp [hunch h hmem]

/-- Witness for `all_blank_hunks_identical` at a concrete hunk deleting one
blank line. -/
theorem all_blank_hunks_identical_witness :
    (∀ h ∈ [((⟨0, 0, 1, 0⟩ : Change), ([] : List Change))],
      (analyze_hunk ⟨true, false, 0⟩ (fun _ _ _ => false)
        (fun _ => []) (fun _ => []) h.1 h.2).value = Changes.UNCHANGED) ∧
    comparisonVerdict ⟨true, false, 0⟩ (fun _ _ _ => false)
      (fun _ => []) (fun _ => [])
      [((⟨0, 0, 1, 0⟩ : Change), ([] : List Change))] = Verdict.identical :=
  all_blank_hunks_identical ⟨true, false, 0⟩ (fun _ _ _ => false)
    (fun _ => []) (fun _ => []) _ rfl
    (by
      intro h hmem c hc
      exact ⟨fun i _ => rfl, fun i _ => rfl⟩)

/-- The spec's reading of regex-based ignorability: some match of the
configured pattern covers the content that remains after the active
whitespace folding has been applied to the line (the folded content is a
suffix of the raw line, so such a match runs from the fold point to the end
of the line). -/
def coversFoldedContent (o : IgnoreOpts) (m : Matcher) (l : List Char) :
    Bool :=
  let skipWS := o.ignore_blank_lines
    && decide (IGNORE_TRAILING_SPACE ≤ o.ignore_white_space)
  let skipLeading := skipWS
    && decide (IGNORE_SPACE_CHANGE ≤ o.ignore_white_space)
  o.ignore_regexp_active
    && m l (l.length - (foldLine skipWS skipLeading l).length) l.length

/-- A concrete matcher: the pattern matches exactly the one-character
substring consisting of the letter x (the semantics of `re_search` with the
literal pattern x, as used by diff -I x). -/
def matchLiteralX : Matcher := fun l i j =>
  decide (j ≤ l.length) && decide (i + 1 = j) && (l.getD i ' ' == 'x')

/-- C3, counterexample.  With only -I x active, the line axb is ignorable
(`re_search` finds the match at position 1), yet no match of the pattern
covers the content remaining after whitespace folding (the whole line). -/
theorem regex_ignorable_covers_cex :
    lineIgnorable ⟨false, true, 0⟩ matchLiteralX ['a', 'x', 'b'] = true ∧
    coversFoldedContent ⟨false, true, 0⟩ matchLiteralX ['a', 'x', 'b']
      = false := by
  decide

/-- C3, amended.  Under ignore-matching-regexp (with ignore-blank-lines
off), a line is ignorable in the triviality filter exactly when `re_search`
finds some match of the pattern anywhere within the raw line: whitespace
folding is not applied before the search, and the match need not cover the
remaining content. -/
theorem regex_ignorable_iff_search (o : IgnoreOpts) (m : Matcher)
    (l : List Char) (hb : o.ignore_blank_lines = false)
    (hr : o.ignore_regexp_active = true) :
    lineIgnorable o m l = reSearchFound m l := by
  simp [lineIgnorable, hb, hr, foldLine, trivial_length]

/-- Witness for `regex_ignorable_iff_search` at the line axb. -/
theorem regex_ignorable_iff_search_witness :
    lineIgnorable ⟨false, true, 0⟩ matchLiteralX ['a', 'x', 'b']
      = reSearchFound matchLiteralX ['a', 'x', 'b'] :=
  regex_ignorable_iff_search ⟨false, true, 0⟩ matchLiteralX
    ['a', 'x', 'b'] rfl rfl

/-- The per-file data `translate_line_number` reads (`struct file_data`):
only the prefix-lines offset matters here. -/
structure FileData where
  prefix_lines : Int
deriving Repr, DecidableEq

/-- `translate_line_number` (util.c:1190-1194): internal 0-based index to
displayed 1-based line number. -/
def translate_line_number (file : FileData) (i : Int) : Int :=
  i + file.prefix_lines + 1

/-- `translate_range` (util.c:1198-1205): translates the pair as
`(translate (a-1) + 1, translate (b+1) - 1)`. -/
def translate_range (file : FileData) (a b : Int) : Int × Int :=
  (translate_line_number file (a - 1) + 1,
   translate_line_number file (b + 1) - 1)

/-- C4.  The displayed line number is the internal index plus the file's
prefix_lines plus 1, and `translate_range` maps `(a, b)` to
`(a + prefix_lines + 1, b + prefix_lines + 1)`. -/
theorem translate_line_number_spec (file : FileData) (i a b : Int) :
    translate_line_number file i = i + file.prefix_lines + 1 ∧
    translate_range file a b
      = (a + file.prefix_lines + 1, b + file.prefix_lines + 1) := by
  refine ⟨rfl, ?_⟩
  simp only [translate_range, translate_line_number, Prod.mk.injEq]
  constructor <;> ring

/-- `print_number_range` (util.c:1213-1226) as the emitted characters:
translate the pair, then print both numbers around `sepchar` when
`trans_a < trans_b`, and just `trans_b` otherwise. -/
def print_number_range (sepchar : Char) (file : FileData) (a b : Int) :
    List Char :=
  let t := translate_range file a b
  if t.1 < t.2 then
    (toString t.1).data ++ sepchar :: (toString t.2).data
  else (toString t.2).data

/-- C5.  For a range covering at least one line, `print_number_range`
emits a single translated number when the range covers one line and the two
translated numbers separated by `sepchar` when it covers more than one. -/
theorem print_number_range_spec (sepchar : Char) (file : FileData)
    (a b : Int) (h : a ≤ b) :
    print_number_range sepchar file a b
      = (if a = b then (toString (translate_line_number file a)).data
         else (toString (translate_line_number file a)).data
           ++ sepchar :: (toString (translate_line_number file b)).data) := by
  have h1 : (translate_range file a b).1 = translate_line_number file a := by
    simp only [translate_range, translate_line_number]
    ring
  have h2 : (translate_range file a b).2 = translate_line_number file b := by
    simp only [translate_range, translate_line_number]
    ring
  by_cases hab : a = b
  · subst hab
    rw [if_pos rfl, print_number_range]
    rw [if_neg (by omega), h2]
  · rw [if_neg hab, print_number_range, if_pos, h1, h2]
    rw [h1, h2]
    simp only [translate_line_number]
    omega

/-- Witness for `print_number_range_spec` on the two-line range 2..3. -/
theorem print_number_range_spec_witness :
    (2 : Int) ≤ 3 ∧
    print_number_range ',' ⟨0⟩ 2 3
      = (if (2 : Int) = 3 then (toString (translate_line_number ⟨0⟩ 2)).data
         else (toString (translate_line_number ⟨0⟩ 2)).data
           ++ ',' :: (toString (translate_line_number ⟨0⟩ 3)).data) :=
  ⟨by decide, print_number_range_spec ',' ⟨0⟩ 2 3 (by decide)⟩

/-- Observable actions of the line-output routines: a buffered write of some
bytes, a call to `process_signals`, and a `set_color_context (RESET_CONTEXT)`
call (whose escape bytes are outside this model). -/
inductive OutEvent where
  | write (bytes : List Char)
  | procSignals
  | colorReset
deriving Repr, DecidableEq

/-- The non-tab-expanding path of `output_1_line` (util.c:1047-1059): write
the text in chunks of at most `MAX_CHUNK = 1024` bytes, calling
`process_signals` after every `fwrite`. -/
def writeChunks (l : List Char) : List OutEvent :=
  if h : l = [] then []
  else
    OutEvent.write (l.take 1024) :: OutEvent.procSignals
      :: writeChunks (l.drop 1024)
termination_by l.length
decreasing_by
  have hlen : l.length ≠ 0 := fun h0 => h (List.eq_nil_of_length_eq_zero h0)
  simp [List.length_drop]
  omega

/-- One iteration of the tab-expanding loop of `output_1_line`
(util.c:1077-1124) on the glyph `c`: the bytes written and the new
`tab` and `column` counters.  `flagBytes` is the flag re-printed after an
internal carriage return (`fprintf (out, flag_format, line_flag)`). -/
def expandStep (ts : Nat) (width : Char → Nat) (flagBytes : Option (List Char))
    (tab column : Nat) (c : Char) (rest : List Char) :
    List Char × Nat × Nat :=
  if c = '\t' then
    (List.replicate (max 1 (ts - column)) ' ', tab + 1, 0)
  else if c = '\r' then
    ('\r' :: (match flagBytes with
              | some fb => if rest ≠ [] ∧ rest.head? ≠ some '\n' then fb else []
              | none => []), 0, 0)
  else if c = Char.ofNat 8 then
    if 0 < column then ([Char.ofNat 8], tab, column - 1)
    else if 0 < tab then ([Char.ofNat 8], tab - 1, ts - 1)
    else ([], tab, column)
  else
    ([c], tab + (column + width c) / ts, (column + width c) % ts)

/-- The tab-expanding loop of `output_1_line` (util.c:1061-1126):
`counter_proc_signals` is incremented at the top of every iteration and
`process_signals` runs when it reaches `MAX_CHUNK = 1024`. -/
def expandEmit (ts : Nat) (width : Char → Nat)
    (flagBytes : Option (List Char)) :
    Nat → Nat → Nat → List Char → List OutEvent
  | _, _, _, [] => []
  | tab, column, counter, c :: rest =>
    let s := expandStep ts width flagBytes tab column c rest
    (if counter + 1 = 1024 then [OutEvent.procSignals] else [])
      ++ OutEvent.write s.1
      :: expandEmit ts width flagBytes s.2.1 s.2.2
          (if counter + 1 = 1024 then 0 else counter + 1) rest

/-- `output_1_line` (util.c:1042-1127) as its trace of writes and
signal-processing points. -/
def output_1_line (expand_tabs : Bool) (ts : Nat) (width : Char → Nat)
    (flagBytes : Option (List Char)) (base : List Char) : List OutEvent :=
  if expand_tabs then expandEmit ts width flagBytes 0 0 0 base
  else writeChunks base

/-- A trace consisting of blocks of one write of at most 1024 bytes each
immediately followed by a `process_signals` call. -/
inductive ChunkedSig : List OutEvent → Prop where
  | nil : ChunkedSig []
  | block (c : List Char) (es : List OutEvent) :
      c.length ≤ 1024 → ChunkedSig es →
      ChunkedSig (OutEvent.write c :: OutEvent.procSignals :: es)

/-- `SigSpaced n es`: at most `n` writes occur before the first
`process_signals` call of `es`, and at most 1024 writes between any two
consecutive `process_signals` calls after that. -/
inductive SigSpaced : Nat → List OutEvent → Prop where
  | nil (n : Nat) : SigSpaced n []
  | sig (n : Nat) (es : List OutEvent) :
      SigSpaced 1024 es → SigSpaced n (OutEvent.procSignals :: es)
  | wr (n : Nat) (c : List Char) (es : List OutEvent) :
      SigSpaced n es → SigSpaced (n + 1) (OutEvent.write c :: es)

theorem chunkedSig_writeChunks_aux (n : Nat) :
    ∀ l : List Char, l.length ≤ n → ChunkedSig (writeChunks l) := by
  induction n with
  | zero =>
    intro l hl
    have h0 : l = [] := List.eq_nil_of_length_eq_zero (by omega)
    subst h0
    rw [writeChunks]
    exact ChunkedSig.nil
  | succ n ih =>
    intro l hl
    rw [writeChunks]
    by_cases hl0 : l = []
    · rw [dif_pos hl0]
      exact ChunkedSig.nil
    · rw [dif_neg hl0]
      refine ChunkedSig.block _ _ ?_ (ih _ ?_)
      · simp [List.length_take]
      · have hlen : l.length ≠ 0 :=
          fun h0 => hl0 (List.eq_nil_of_length_eq_zero h0)
        simp [List.length_drop]
        omega

/-- The non-tab-expanding trace is chunked: `process_signals` runs after
every write of at most 1024 bytes. -/
theorem chunkedSig_writeChunks (l : List Char) : ChunkedSig (writeChunks l) :=
  chunkedSig_writeChunks_aux l.length l le_rfl

theorem sigSpaced_step (counter : Nat) (hc : counter ≤ 1023) (x : List Char)
    (T : List OutEvent)
    (hT : SigSpaced (1023 - (if counter + 1 = 1024 then 0 else counter + 1)) T) :
    SigSpaced (1023 - counter)
      ((if counter + 1 = 1024 then [OutEvent.procSignals] else [])
        ++ OutEvent.write x :: T) := by
  by_cases h : counter + 1 = 1024
  · have hco : counter = 1023 := by omega
    subst hco
    rw [if_pos h] at hT ⊢
    have hT' : SigSpaced 1023 T := by simpa using hT
    have : SigSpaced 1024 (OutEvent.write x :: T) :=
      SigSpaced.wr 1023 x T hT'
    simpa using SigSpaced.sig 0 _ this
  · rw [if_neg h] at hT ⊢
    have he : 1023 - counter = (1023 - (counter + 1)) + 1 := by omega
    rw [he, List.nil_append]
    exact SigSpaced.wr _ x T hT

theorem expandEmit_sigSpaced (ts : Nat) (width : Char → Nat)
    (flagBytes : Option (List Char)) (l : List Char) :
    ∀ tab column counter, counter ≤ 1023 →
      SigSpaced (1023 - counter)
        (expandEmit ts width flagBytes tab column counter l) := by
  induction l with
  | nil =>
    intro tab column counter _
    exact SigSpaced.nil _
  | cons c rest ih =>
    intro tab column counter hc
    rw [expandEmit]
    refine sigSpaced_step counter hc _ _ ?_
    by_cases h : counter + 1 = 1024
    · rw [if_pos h]
      exact ih _ _ 0 (by omega)
    · rw [if_neg h]
      exact ih _ _ (counter + 1) (by omega)

/-- Number of bytes an event writes. -/
def eventWriteLen : OutEvent → Nat
  | OutEvent.write b => b.length
  | _ => 0

/-- Upper bound on the bytes one iteration of the tab-expanding loop can
write: a full tab stop, or a carriage return plus a re-printed flag. -/
def writeBound (ts : Nat) (flagBytes : Option (List Char)) : Nat :=
  max (max 1 ts) (1 + (flagBytes.getD []).length)

theorem expandStep_writeLen_le (ts : Nat) (width : Char → Nat)
    (flagBytes : Option (List Char)) (tab column : Nat) (c : Char)
    (rest : List Char) :
    (expandStep ts width flagBytes tab column c rest).1.length
      ≤ writeBound ts flagBytes := by
  unfold expandStep writeBound
  by_cases h1 : c = '\t'
  · rw [if_pos h1]
    simp only [List.length_replicate]
    omega
  · rw [if_neg h1]
    by_cases h2 : c = '\r'
    · rw [if_pos h2]
      rcases flagBytes with _ | fb
      · simp only [List.length_cons, List.length_nil, Option.getD_none]
        omega
      · by_cases hr : rest ≠ [] ∧ rest.head? ≠ some '\n'
        · simp only [if_pos hr, List.length_cons, Option.getD_some]
          omega
        · simp only [if_neg hr, List.length_cons, List.length_nil,
            Option.getD_some]
          omega
    · rw [if_neg h2]
      by_cases h3 : c = Char.ofNat 8
      · rw [if_pos h3]
        by_cases h4 : 0 < column
        · rw [if_pos h4]
          simp only [List.length_singleton]
          omega
        · rw [if_neg h4]
          by_cases h5 : 0 < tab
          · rw [if_pos h5]
            simp only [List.length_singleton]
            omega
          · rw [if_neg h5]
            simp only [List.length_nil]
            omega
      · rw [if_neg h3]
        simp only [List.length_singleton]
        omega

theorem expandEmit_writeLen_le (ts : Nat) (width : Char → Nat)
    (flagBytes : Option (List Char)) (l : List Char) :
    ∀ tab column counter,
      ∀ e ∈ expandEmit ts width flagBytes tab column counter l,
        eventWriteLen e ≤ writeBound ts flagBytes := by
  induction l with
  | nil =>
    intro tab column counter e he
    rw [expandEmit] at he
    exact absurd he (List.not_mem_nil e)
  | cons c rest ih =>
    intro tab column counter e he
    rw [expandEmit] at he
    rcases List.mem_append.mp he with hsig | hrest
    · by_cases h : counter + 1 = 1024
      · rw [if_pos h] at hsig
        have : e = OutEvent.procSignals := List.mem_singleton.mp hsig
        subst this
        simp [eventWriteLen]
      · rw [if_neg h] at hsig
        exact absurd hsig (List.not_mem_nil e)
    · rcases List.mem_cons.mp hrest with hw | htail
      · subst hw
        exact expandStep_writeLen_le ts width flagBytes tab column c rest
      · exact ih _ _ _ e htail

/-- C8.  During `output_1_line`, signals are processed at least once per
fixed-size chunk: in the non-tab-expanding path `process_signals` follows
every buffered write of at most 1024 bytes, and in the tab-expanding path
it runs after every 1024 loop iterations, each of which writes at most
`writeBound` bytes, so the output between two signal-processing points is
bounded. -/
theorem output_1_line_signal_spacing (ts : Nat) (width : Char → Nat)
    (flagBytes : Option (List Char)) (line : List Char) :
    ChunkedSig (output_1_line false ts width flagBytes line) ∧
    SigSpaced 1023 (output_1_line true ts width flagBytes line) ∧
    ∀ e ∈ output_1_line true ts width flagBytes line,
      eventWriteLen e ≤ writeBound ts flagBytes := by
  refine ⟨?_, ?_, ?_⟩
  · rw [output_1_line, if_neg (by simp)]
    exact chunkedSig_writeChunks line
  · rw [output_1_line, if_pos rfl]
    have := expandEmit_sigSpaced ts width flagBytes line 0 0 0 (by omega)
    simpa using this
  · rw [output_1_line, if_pos rfl]
    exact expandEmit_writeLen_le ts width flagBytes line 0 0 0

/-- The bytes of the incomplete-line marker printed by `print_1_line_nl`:
`fprintf (out, "\n\\ %s\n", _("No newline at end of file"))` (util.c:1033). -/
def noNewlineMarker : List Char :=
  '\n' :: '\\' :: ' ' :: ("No newline at end of file".data ++ ['\n'])

/-- Presentation options read by `print_1_line_nl` and `output_1_line`:
`initial_tab` (-T), `suppress_blank_empty`, `expand_tabs` (-t), `tabsize`,
and an abstract glyph-width function standing for `c32width`. -/
structure PrintOpts where
  initial_tab : Bool
  suppress_blank_empty : Bool
  expand_tabs : Bool
  tabsize : Nat
  charWidth : Char → Nat

/-- The separator after the line flag: a tab under -T, else a space
(the `"%s\t"` / `"%s "` flag formats of util.c:1012). -/
def flagSep (o : PrintOpts) : Char :=
  if o.initial_tab then '\t' else ' '

/-- The `flag_format`/`line_flag` pair handed to `output_1_line`: set only
when the line flag is non-null and nonempty (util.c:1010-1012, 1028). -/
def flagBytesOf (o : PrintOpts) (flag : Option (List Char)) :
    Option (List Char) :=
  match flag with
  | some f => if f = [] then none else some (f ++ [flagSep o])
  | none => none

/-- The write of the flag before the line content (util.c:1010-1026):
nothing for a null or empty flag; under `suppress_blank_empty` on an empty
line, the flag without separator and with a single leading blank dropped;
otherwise the flag followed by the separator. -/
def flagEventsOf (o : PrintOpts) (flag : Option (List Char))
    (line : List Char) : List OutEvent :=
  match flag with
  | some f =>
    if f = [] then []
    else if o.suppress_blank_empty ∧ line.head? = some '\n' then
      [OutEvent.write (if f.head? = some ' ' then f.tail else f)]
    else [OutEvent.write (f ++ [flagSep o])]
  | none => []

/-- The content handed to `output_1_line`: the line bytes, with the final
newline dropped when `skip_nl` is set and the line ends in one
(util.c:1028). -/
def bodyOf (line : List Char) (skip_nl : Bool) : List Char :=
  line.take
    (line.length - (if skip_nl ∧ line.getLast? = some '\n' then 1 else 0))

/-- `print_1_line_nl` (util.c:998-1035) as its trace of output events.
A line is its full byte run `base .. limit`, including the final newline
byte when the line has one.  The flag is `none` for a null `line_flag`.
After the content, the no-newline marker is printed when
`(!line_flag || line_flag[0]) && limit[-1] != '\n'` (util.c:1030). -/
def print_1_line_nl (o : PrintOpts) (flag : Option (List Char))
    (line : List Char) (skip_nl : Bool) : List OutEvent :=
  flagEventsOf o flag line
    ++ output_1_line o.expand_tabs o.tabsize o.charWidth (flagBytesOf o flag)
        (bodyOf line skip_nl)
    ++ (if flag ≠ some [] ∧ line.getLast? ≠ some '\n' then
          [OutEvent.colorReset, OutEvent.write noNewlineMarker]
        else [])

/-- `print_1_line` (util.c:986-990): `print_1_line_nl` without newline
skipping. -/
def print_1_line (o : PrintOpts) (flag : Option (List Char))
    (line : List Char) : List OutEvent :=
  print_1_line_nl o flag line false

/-- A trace that ends with the color reset followed by the no-newline
marker write. -/
def endsWithMarker (es : List OutEvent) : Prop :=
  ∃ es0, es = es0 ++ [OutEvent.colorReset, OutEvent.write noNewlineMarker]

theorem colorReset_not_mem_writeChunks_aux (n : Nat) :
    ∀ l : List Char, l.length ≤ n →
      OutEvent.colorReset ∉ writeChunks l := by
  induction n with
  | zero =>
    intro l hl
    have h0 : l = [] := List.eq_nil_of_length_eq_zero (by omega)
    subst h0
    rw [writeChunks]
    simp
  | succ n ih =>
    intro l hl
    rw [writeChunks]
    by_cases hl0 : l = []
    · rw [dif_pos hl0]
      simp
    · rw [dif_neg hl0]
      intro hmem
      rcases List.mem_cons.mp hmem with h | h
      · cases h
      · rcases List.mem_cons.mp h with h2 | h2
        · cases h2
        · have hlen : l.length ≠ 0 :=
            fun h0 => hl0 (List.eq_nil_of_length_eq_zero h0)
          exact ih (l.drop 1024) (by simp [List.length_drop]; omega) h2

theorem colorReset_not_mem_expandEmit (ts : Nat) (width : Char → Nat)
    (flagBytes : Option (List Char)) (l : List Char) :
    ∀ tab column counter,
      OutEvent.colorReset ∉ expandEmit ts width flagBytes tab column counter l := by
  induction l with
  | nil =>
    intro tab column counter
    rw [expandEmit]
    simp
  | cons c rest ih =>
    intro tab column counter
    rw [expandEmit]
    intro hmem
    rcases List.mem_append.mp hmem with hsig | hrest
    · by_cases h : counter + 1 = 1024
      · rw [if_pos h] at hsig
        cases List.mem_singleton.mp hsig
      · rw [if_neg h] at hsig
        exact List.not_mem_nil _ hsig
    · rcases List.mem_cons.mp hrest with hw | htail
      · cases hw
      · exact ih _ _ _ htail

theorem colorReset_not_mem_output (expand_tabs : Bool) (ts : Nat)
    (width : Char → Nat) (flagBytes : Option (List Char)) (l : List Char) :
    OutEvent.colorReset ∉ output_1_line expand_tabs ts width flagBytes l := by
  rw [output_1_line]
  cases expand_tabs with
  | false =>
    rw [if_neg (by simp)]
    exact colorReset_not_mem_writeChunks_aux l.length l le_rfl
  | true =>
    rw [if_pos rfl]
    exact colorReset_not_mem_expandEmit ts width flagBytes l 0 0 0

/-- C6, counterexample.  With the non-null empty line flag (as used by the
ed-style output), `print_1_line` does not append the no-newline marker even
though the line does not end in a newline character. -/
theorem no_newline_marker_cex :
    ['a'].getLast? ≠ some '\n' ∧
    OutEvent.write noNewlineMarker
      ∉ print_1_line ⟨false, false, true, 8, fun _ => 1⟩ (some []) ['a'] := by
  decide

/-- C6, amended.  `print_1_line_nl` appends the marker line
`\ No newline at end of file` exactly for lines whose text does not end in
a newline character, provided the line flag is null or nonempty; when the
flag is the non-null empty string (ed-style output), or the line ends in a
newline, the marker is not appended. -/
theorem no_newline_marker_iff (o : PrintOpts) (flag : Option (List Char))
    (line : List Char) (skip_nl : Bool) :
    ((flag ≠ some [] ∧ line.getLast? ≠ some '\n') →
      endsWithMarker (print_1_line_nl o flag line skip_nl)) ∧
    ((flag = some [] ∨ line.getLast? = some '\n') →
      ¬ endsWithMarker (print_1_line_nl o flag line skip_nl)) := by
  constructor
  · intro h
    rw [print_1_line_nl]
    rw [if_pos h]
    exact ⟨_, by rw [List.append_assoc]⟩
  · intro h hmark
    obtain ⟨es0, hes0⟩ := hmark
    rw [print_1_line_nl] at hes0
    have hno : ¬ (flag ≠ some [] ∧ line.getLast? ≠ some '\n') := by
      rcases h with h | h
      · intro hcon
        exact hcon.1 h
      · intro hcon
        exact hcon.2 h
    rw [if_neg hno, List.append_nil] at hes0
    have hmem : OutEvent.colorReset
        ∈ flagEventsOf o flag line
          ++ output_1_line o.expand_tabs o.tabsize o.charWidth
              (flagBytesOf o flag) (bodyOf line skip_nl) := by
      rw [hes0]
      exact List.mem_append.mpr (Or.inr (by simp))
    rcases List.mem_append.mp hmem with hflag | hbody
    · rcases flag with _ | f <;> rw [flagEventsOf.eq_def] at hflag <;>
        dsimp only at hflag
      · exact List.not_mem_nil _ hflag
      · by_cases hf : f = []
        · rw [if_pos hf] at hflag
          exact List.not_mem_nil _ hflag
        · rw [if_neg hf] at hflag
          by_cases hsb : o.suppress_blank_empty ∧ line.head? = some '\n'
          · rw [if_pos hsb] at hflag
            cases List.mem_singleton.mp hflag
          · rw [if_neg hsb] at hflag
            cases List.mem_singleton.mp hflag
    · exact colorReset_not_mem_output _ _ _ _ _ hbody

/-- Witness for `no_newline_marker_iff`: a null flag and a line with no
final newline get the marker. -/
theorem no_newline_marker_iff_witness :
    endsWithMarker (print_1_line_nl ⟨false, false, false, 8, fun _ => 1⟩
      none ['a'] false) :=
  (no_newline_marker_iff ⟨false, false, false, 8, fun _ => 1⟩
      none ['a'] false).1 ⟨by simp, by decide⟩

/-- States of the `get_funky_string` machine (util.c:438-440):
ground, backslash escape, octal and hex accumulation (carrying the partial
`num` byte), and caret escape. -/
inductive GfsState where
  | gnd
  | bs
  | oct (num : Nat)
  | hexd (num : Nat)
  | caret
deriving Repr, DecidableEq

/-- Rank used for termination: the octal, hex and caret states can step to
the ground state without consuming input, but never the other way. -/
def gfsRank : GfsState → Nat
  | GfsState.gnd => 0
  | _ => 1

/-- Value of a hex digit byte, if any. -/
def hexVal (c : Nat) : Option Nat :=
  if 48 ≤ c ∧ c ≤ 57 then some (c - 48)
  else if 97 ≤ c ∧ c ≤ 102 then some (c - 97 + 10)
  else if 65 ≤ c ∧ c ≤ 70 then some (c - 65 + 10)
  else none

/-- The byte produced by a single-character backslash escape
(util.c:498-533): recognized escapes map to control bytes, any other byte
stands for itself. -/
def bsEscape (c : Nat) : Nat :=
  if c = 97 then 7
  else if c = 98 then 8
  else if c = 101 then 27
  else if c = 102 then 12
  else if c = 110 then 10
  else if c = 114 then 13
  else if c = 116 then 9
  else if c = 118 then 11
  else if c = 63 then 127
  else if c = 95 then 32
  else c

/-- The loop of `get_funky_string` (util.c:435-614) from a given state.
The input is the remaining source bytes (the terminating NUL of the C
string is the end of the list).  Returns `(ok, written, consumed)`: whether
the machine stopped in `ST_END` rather than `ST_ERROR`, the bytes written
through `*dest`, and the number of bytes `*src` advanced (on the
backslash-before-NUL error the C code advances `p` one past the NUL, hence
the extra 1 there). -/
def gfsRun (equals_end : Bool) : GfsState → List Nat → Bool × List Nat × Nat
  | GfsState.gnd, [] => (true, [], 0)
  | GfsState.gnd, c :: rest =>
    if c = 58 then (true, [], 0)
    else if c = 92 then
      let r := gfsRun equals_end GfsState.bs rest
      (r.1, r.2.1, r.2.2 + 1)
    else if c = 94 then
      let r := gfsRun equals_end GfsState.caret rest
      (r.1, r.2.1, r.2.2 + 1)
    else if c = 61 ∧ equals_end then (true, [], 0)
    else
      let r := gfsRun equals_end GfsState.gnd rest
      (r.1, c :: r.2.1, r.2.2 + 1)
  | GfsState.bs, [] => (false, [], 1)
  | GfsState.bs, c :: rest =>
    if 48 ≤ c ∧ c ≤ 55 then
      let r := gfsRun equals_end (GfsState.oct (c - 48)) rest
      (r.1, r.2.1, r.2.2 + 1)
    else if c = 120 ∨ c = 88 then
      let r := gfsRun equals_end (GfsState.hexd 0) rest
      (r.1, r.2.1, r.2.2 + 1)
    else
      let r := gfsRun equals_end GfsState.gnd rest
      (r.1, bsEscape c :: r.2.1, r.2.2 + 1)
  | GfsState.oct num, [] => (true, [num], 0)
  | GfsState.oct num, c :: rest =>
    if 48 ≤ c ∧ c ≤ 55 then
      let r := gfsRun equals_end (GfsState.oct ((num * 8 + (c - 48)) % 256)) rest
      (r.1, r.2.1, r.2.2 + 1)
    else
      let r := gfsRun equals_end GfsState.gnd (c :: rest)
      (r.1, num :: r.2.1, r.2.2)
  | GfsState.hexd num, [] => (true, [num], 0)
  | GfsState.hexd num, c :: rest =>
    match hexVal c with
    | some v =>
      let r := gfsRun equals_end (GfsState.hexd ((num * 16 + v) % 256)) rest
      (r.1, r.2.1, r.2.2 + 1)
    | none =>
      let r := gfsRun equals_end GfsState.gnd (c :: rest)
      (r.1, num :: r.2.1, r.2.2)
  | GfsState.caret, [] => (false, [], 0)
  | GfsState.caret, c :: rest =>
    if 64 ≤ c ∧ c ≤ 126 then
      let r := gfsRun equals_end GfsState.gnd rest
      (r.1, (c % 32) :: r.2.1, r.2.2 + 1)
    else if c = 63 then
      let r := gfsRun equals_end GfsState.gnd (c :: rest)
      (r.1, 127 :: r.2.1, r.2.2)
    else (false, [], 0)
termination_by st src => 2 * src.length + gfsRank st
decreasing_by
  all_goals simp [gfsRank]
  all_goals omega

/-- `get_funky_string` (util.c:435-614), started in the ground state. -/
def get_funky_string (equals_end : Bool) (src : List Nat) :
    Bool × List Nat × Nat :=
  gfsRun equals_end GfsState.gnd src

/-- Slack of each state for the write-vs-consume accounting: the octal,
hex and caret states may emit one byte beyond their local consumption,
paid for by the escape-introducing bytes consumed on entry. -/
def gfsSlack : GfsState → Nat
  | GfsState.gnd => 0
  | GfsState.bs => 0
  | GfsState.oct _ => 1
  | GfsState.hexd _ => 1
  | GfsState.caret => 1

theorem gfsRun_writes_le (equals_end : Bool) (st : GfsState)
    (src : List Nat) :
    (gfsRun equals_end st src).2.1.length
      ≤ (gfsRun equals_end st src).2.2 + gfsSlack st := by
  induction st, src using gfsRun.induct equals_end
  · rw [gfsRun.eq_1]
    simp [gfsSlack]
  · rename_i rest
    rw [gfsRun.eq_2]
    simp [gfsSlack]
  · rename_i rest h1 ih
    rw [gfsRun.eq_2]
    simp [gfsSlack] at ih ⊢ <;> omega
  · rename_i rest h1 h2 ih
    rw [gfsRun.eq_2]
    simp [gfsSlack] at ih ⊢ <;> omega
  · rename_i c rest h1 h2 h3 h4
    rw [gfsRun.eq_2, if_neg h1, if_neg h2, if_neg h3, if_pos h4]
    simp [gfsSlack]
  · rename_i c rest h1 h2 h3 h4 ih
    rw [gfsRun.eq_2, if_neg h1, if_neg h2, if_neg h3, if_neg h4]
    simp [gfsSlack] at ih ⊢ <;> omega
  · rw [gfsRun.eq_3]
    simp [gfsSlack]
  · rename_i c rest hc ih
    rw [gfsRun.eq_4, if_pos hc]
    simp [gfsSlack] at ih ⊢ <;> omega
  · rename_i c rest h1 h2 ih
    rw [gfsRun.eq_4, if_neg h1, if_pos h2]
    simp [gfsSlack] at ih ⊢ <;> omega
  · rename_i c rest h1 h2 ih
    rw [gfsRun.eq_4, if_neg h1, if_neg h2]
    simp [gfsSlack] at ih ⊢ <;> omega
  · rename_i num
    rw [gfsRun.eq_5]
    simp [gfsSlack]
  · rename_i num c rest hc ih
    rw [gfsRun.eq_6, if_pos hc]
    simp [gfsSlack] at ih ⊢ <;> omega
  · rename_i num c rest hc ih
    rw [gfsRun.eq_6, if_neg hc]
    simp [gfsSlack] at ih ⊢ <;> omega
  · rename_i num
    rw [gfsRun.eq_7]
    simp [gfsSlack]
  · rename_i num c rest v heq ih
    rw [gfsRun.eq_8, heq]
    simp [gfsSlack] at ih ⊢ <;> omega
  · rename_i num c rest heq ih
    rw [gfsRun.eq_8, heq]
    simp [gfsSlack] at ih ⊢ <;> omega
  · rw [gfsRun.eq_9]
    simp [gfsSlack]
  · rename_i c rest hc ih
    rw [gfsRun.eq_10, if_pos hc]
    simp [gfsSlack] at ih ⊢ <;> omega
  · rename_i rest hno ih
    rw [gfsRun.eq_10, if_neg hno]
    simp [gfsSlack] at ih ⊢ <;> omega
  · rename_i c rest h1 h2
    rw [gfsRun.eq_10, if_neg h1, if_neg h2]
    simp [gfsSlack]

/-- C10.  `get_funky_string` writes at most as many bytes through `*dest`
as it consumes from `*src`, for either value of `equals_end`; hence the
in-place processing in `parse_diff_color`, where the destination pointer
starts at or before the source pointer in the same buffer, never writes
past the position already read. -/
theorem get_funky_string_dest_le_src (equals_end : Bool) (src : List Nat) :
    (get_funky_string equals_end src).2.1.length
      ≤ (get_funky_string equals_end src).2.2 := by
  have h := gfsRun_writes_le equals_end GfsState.gnd src
  simpa [get_funky_string, gfsSlack] using h

/-- Exit status used by the fatal diagnostics of util.c
(`error (EXIT_TROUBLE, ...)` in `fatal` and `pfatal_with_name`). -/
def EXIT_TROUBLE : Nat := 2

/-- The two diagnostics `parse_diff_color` can emit (util.c:727, 747). -/
inductive PaletteMsg where
  | unrecognizedLabel (l0 l1 : Nat)
  | unparsableValue
deriving Repr, DecidableEq

/-- One `error (status, 0, ...)` call: `error` returns to the caller when
`status` is 0 and terminates the process when it is nonzero. -/
structure Diag where
  status : Nat
  msg : PaletteMsg
deriving Repr, DecidableEq

/-- The `indicator_name` table (util.c:640-643) as byte pairs:
lc, rc, ec, rs, hd, ad, de, ln. -/
def indicator_name : List (Nat × Nat) :=
  [(108, 99), (114, 99), (101, 99), (114, 115),
   (104, 100), (97, 100), (100, 101), (108, 110)]

/-- Index of a two-byte label in `indicator_name`, if present. -/
def indicatorIndex (l0 l1 : Nat) : Option Nat :=
  indicator_name.findIdx? fun p => p.1 == l0 && p.2 == l1

/-- The `PS_START`/`PS_2`/`PS_3`/`PS_4` loop of `parse_diff_color`
(util.c:671-742), returning whether it reached `PS_DONE` rather than
`PS_FAIL`, the diagnostics emitted on the way, and the recorded
`color_indicator` assignments (indicator index and decoded bytes). -/
def pdcLoop : List Nat → Bool × List Diag × List (Nat × List Nat)
  | [] => (true, [], [])
  | c :: rest =>
    if c = 58 then pdcLoop rest
    else if c = 42 then
      let r := get_funky_string true rest
      if r.1 then
        match h2 : rest.drop r.2.2 with
        | [] => (false, [], [])
        | d :: rest2 =>
          if d = 61 then
            let r2 := get_funky_string false rest2
            if r2.1 then pdcLoop (rest2.drop r2.2.2)
            else (false, [], [])
          else (false, [], [])
      else (false, [], [])
    else
      match hr : rest with
      | [] => (false, [], [])
      | c2 :: rest2 =>
        match hr2 : rest2 with
        | [] => (false, [], [])
        | c3 :: rest3 =>
          if c3 = 61 then
            match indicatorIndex c c2 with
            | some ind =>
              let r := get_funky_string false rest3
              if r.1 then
                let t := pdcLoop (rest3.drop r.2.2)
                (t.1, t.2.1, (ind, r.2.1) :: t.2.2)
              else
                (false,
                 [{ status := 0, msg := PaletteMsg.unrecognizedLabel c c2 }],
                 [])
            | none =>
              (false,
               [{ status := 0, msg := PaletteMsg.unrecognizedLabel c c2 }],
               [])
          else (false, [], [])
termination_by src => src.length
decreasing_by
  · simp
  · have h2l := congrArg List.length h2
    simp only [List.length_cons, List.length_drop] at h2l
    simp only [List.length_cons, List.length_drop]
    omega
  · have hrl := congrArg List.length hr
    have hr2l := congrArg List.length hr2
    simp only [List.length_cons] at hrl hr2l
    simp only [List.length_cons, List.length_drop]
    omega

/-- The outcome of `parse_diff_color` (util.c:656-751): whether parsing
succeeded, the diagnostics emitted, whether `colors_enabled` was cleared,
and the recorded indicator assignments. -/
structure PaletteParse where
  ok : Bool
  diags : List Diag
  colorsDisabled : Bool
  assignments : List (Nat × List Nat)
deriving Repr, DecidableEq

/-- `parse_diff_color` (util.c:656-751): on `PS_FAIL` it emits the
`unparsable value for --palette` diagnostic with status 0 and clears
`colors_enabled`, then returns. -/
def parse_diff_color (palette : List Nat) : PaletteParse :=
  let r := pdcLoop palette
  if r.1 then
    { ok := true, diags := r.2.1, colorsDisabled := false,
      assignments := r.2.2 }
  else
    { ok := false,
      diags := r.2.1 ++ [{ status := 0, msg := PaletteMsg.unparsableValue }],
      colorsDisabled := true, assignments := r.2.2 }

theorem pdcLoop_diags_status_aux (n : Nat) :
    ∀ src : List Nat, src.length ≤ n →
      ∀ d ∈ (pdcLoop src).2.1, d.status = 0 := by
  induction n with
  | zero =>
    intro src hl
    have h0 : src = [] := List.eq_nil_of_length_eq_zero (by omega)
    subst h0
    rw [pdcLoop.eq_1]
    simp
  | succ n ih =>
    intro src hl
    rcases src with _ | ⟨c, rest⟩
    · rw [pdcLoop.eq_def]
      simp
    · simp only [List.length_cons] at hl
      rw [pdcLoop.eq_def]
      dsimp only
      by_cases hc58 : c = 58
      · rw [if_pos hc58]
        exact ih rest (by omega)
      · rw [if_neg hc58]
        by_cases hc42 : c = 42
        · rw [if_pos hc42]
          by_cases hr1 : (get_funky_string true rest).1 = true
          · rw [if_pos hr1]
            split
            · simp
            · rename_i d0 rest2 hdrop
              by_cases hd61 : d0 = 61
              · rw [if_pos hd61]
                by_cases hr2 : (get_funky_string false rest2).1 = true
                · rw [if_pos hr2]
                  have hlen := congrArg List.length hdrop
                  simp only [List.length_cons, List.length_drop] at hlen
                  exact ih _ (by simp only [List.length_drop]; omega)
                · rw [if_neg hr2]
                  simp
              · rw [if_neg hd61]
                simp
          · rw [if_neg hr1]
            simp
        · rw [if_neg hc42]
          split
          · simp
          · split
            · simp
            · rename_i d0 c3 rest3 hr
              by_cases h61 : c3 = 61
              · rw [if_pos h61]
                split
                · rename_i ind hind
                  by_cases hrr : (get_funky_string false rest3).1 = true
                  · rw [if_pos hrr]
                    dsimp only
                    simp only [List.length_cons] at hl
                    exact ih _ (by simp only [List.length_drop]; omega)
                  · rw [if_neg hrr]
                    simp
                · simp
              · rw [if_neg h61]
                simp

theorem pdcLoop_diags_status (src : List Nat) :
    ∀ d ∈ (pdcLoop src).2.1, d.status = 0 :=
  pdcLoop_diags_status_aux src.length src le_rfl

/-- C7, counterexample.  The malformed palette string zz makes parsing
fail, yet every diagnostic `parse_diff_color` emits carries `error` status
0 (not `EXIT_TROUBLE`), so the program is not terminated and the
comparison continues with colors disabled. -/
theorem palette_failure_nonfatal_cex :
    (parse_diff_color [122, 122]).ok = false ∧
    (parse_diff_color [122, 122]).diags ≠ [] ∧
    ∀ d ∈ (parse_diff_color [122, 122]).diags,
      d.status = 0 ∧ d.status ≠ EXIT_TROUBLE := by
  simp [parse_diff_color, pdcLoop, EXIT_TROUBLE]

/-- C7, amended.  A malformed --palette string is reported with a
non-fatal diagnostic: whenever parsing fails, `parse_diff_color` emits at
least one diagnostic, every diagnostic it emits has `error` status 0
(never `EXIT_TROUBLE`), and it returns with colors disabled, so the
comparison continues rather than terminating. -/
theorem palette_failure_nonfatal (palette : List Nat)
    (h : (parse_diff_color palette).ok = false) :
    (parse_diff_color palette).colorsDisabled = true ∧
    (parse_diff_color palette).diags ≠ [] ∧
    ∀ d ∈ (parse_diff_color palette).diags,
      d.status = 0 ∧ d.status ≠ EXIT_TROUBLE := by
  rw [parse_diff_color] at h ⊢
  by_cases hok : (pdcLoop palette).1 = true
  · rw [if_pos hok] at h
    cases h
  · have hok' : (pdcLoop palette).1 = false := by
      rcases Bool.eq_false_or_eq_true (pdcLoop palette).1 with hb | hb
      · exact absurd hb hok
      · exact hb
    rw [if_neg hok] at h ⊢
    refine ⟨rfl, by simp, ?_⟩
    intro d hd
    rcases List.mem_append.mp hd with hbase | hlast
    · have := pdcLoop_diags_status palette d hbase
      exact ⟨this, by rw [this]; decide⟩
    · have : d = { status := 0, msg := PaletteMsg.unparsableValue } :=
        List.mem_singleton.mp hlast
      subst this
      exact ⟨rfl, by decide⟩

/-- Witness for `palette_failure_nonfatal` at the palette zz. -/
theorem palette_failure_nonfatal_witness :
    (parse_diff_color [122, 122]).colorsDisabled = true ∧
    (parse_diff_color [122, 122]).diags ≠ [] ∧
    ∀ d ∈ (parse_diff_color [122, 122]).diags,
      d.status = 0 ∧ d.status ≠ EXIT_TROUBLE :=
  palette_failure_nonfatal [122, 122] (by simp [parse_diff_color, pdcLoop])

/-- A `struct change` node as it sits in memory: its fields plus its `link`
pointer, represented as an optional index into the node store. -/
structure ChangeNode where
  change : Change
  link : Option Nat
deriving Repr, DecidableEq

/-- Write a new `link` value into node `i` of the store.  Out-of-range
indices leave the store unchanged. -/
def setLink (store : List ChangeNode) (i : Nat) (v : Option Nat) :
    List ChangeNode :=
  match store[i]? with
  | some nd => store.set i { nd with link := v }
  | none => store

/-- Read the `link` of node `i` (a null pointer for missing nodes). -/
def getLink (store : List ChangeNode) (i : Nat) : Option Nat :=
  match store[i]? with
  | some nd => nd.link
  | none => none

/-- One iteration of the `print_script` loop (util.c:959-978): `hunkfun`
picks the last change `end` of the hunk starting at `this`; the code saves
`end->link` as `next`, sets `end->link` to null, prints the hunk with
`printfun` (a pure observer of the store), and reconnects `end->link` to
`next`.  Returns the store after the iteration, the saved `next`, and the
output of `printfun`. -/
def print_script_step (hunkfun : List ChangeNode → Nat → Nat)
    (printfun : List ChangeNode → Nat → List OutEvent)
    (store : List ChangeNode) (this : Nat) :
    List ChangeNode × Option Nat × List OutEvent :=
  let e := hunkfun store this
  let next := getLink store e
  let disconnected := setLink store e none
  let out := printfun disconnected this
  (setLink disconnected e next, next, out)

/-- The `while (next)` loop of `print_script` (util.c:952-979), with an
explicit iteration bound standing for the finiteness of the chain. -/
def print_script (hunkfun : List ChangeNode → Nat → Nat)
    (printfun : List ChangeNode → Nat → List OutEvent) :
    Nat → List ChangeNode → Option Nat → List ChangeNode × List OutEvent
  | _, store, none => (store, [])
  | 0, store, some _ => (store, [])
  | fuel + 1, store, some this =>
    let s := print_script_step hunkfun printfun store this
    let t := print_script hunkfun printfun fuel s.1 s.2.1
    (t.1, s.2.2 ++ t.2)

/-- `find_change` (util.c:935-939): the identity hunk picker. -/
def find_change (store : List ChangeNode) (this : Nat) : Nat :=
  this

theorem set_getElem_self_eq :
    ∀ (l : List ChangeNode) (i : Nat) (nd : ChangeNode),
      l[i]? = some nd → l.set i nd = l := by
  intro l
  induction l with
  | nil =>
    intro i nd h
    simp at h
  | cons a t ih =>
    intro i nd h
    cases i with
    | zero =>
      simp only [List.getElem?_cons_zero, Option.some.injEq] at h
      subst h
      rfl
    | succ j =>
      simp only [List.getElem?_cons_succ] at h
      show a :: t.set j nd = a :: t
      rw [ih j nd h]

theorem setLink_setLink_restore (store : List ChangeNode) (i : Nat) :
    setLink (setLink store i none) i (getLink store i) = store := by
  cases hi : store[i]? with
  | none =>
    have h1 : setLink store i none = store := by rw [setLink, hi]
    have h2 : getLink store i = none := by rw [getLink, hi]
    rw [h1, h2, setLink, hi]
  | some nd =>
    have hlt : i < store.length := by
      rcases List.getElem?_eq_some_iff.mp hi with ⟨h, _⟩
      exact h
    have h1 : setLink store i none = store.set i { nd with link := none } := by
      rw [setLink, hi]
    have h2 : getLink store i = nd.link := by rw [getLink, hi]
    rw [h1, h2, setLink]
    have h3 : (store.set i { nd with link := none })[i]?
        = some { nd with link := none } :=
      List.getElem?_set_self (by simpa using hlt)
    rw [h3]
    dsimp only
    rw [List.set_set]
    have h4 : ({ change := nd.change, link := nd.link } : ChangeNode) = nd := by
      cases nd
      rfl
    rw [h4]
    exact set_getElem_self_eq store i nd hi

theorem print_script_step_restores (hunkfun : List ChangeNode → Nat → Nat)
    (printfun : List ChangeNode → Nat → List OutEvent)
    (store : List ChangeNode) (this : Nat) :
    (print_script_step hunkfun printfun store this).1 = store := by
  rw [print_script_step]
  exact setLink_setLink_restore store (hunkfun store this)

/-- C9.  `print_script` leaves the Change chain structurally unchanged:
each hunk's last link is nulled only around the `printfun` call and
reconnected immediately afterwards, so the store after `print_script`
equals the store before it, for every hunk picker and every (pure)
printer. -/
theorem print_script_preserves_chain
    (hunkfun : List ChangeNode → Nat → Nat)
    (printfun : List ChangeNode → Nat → List OutEvent)
    (fuel : Nat) (store : List ChangeNode) (script : Option Nat) :
    (print_script hunkfun printfun fuel store script).1 = store := by
  induction fuel generalizing store script with
  | zero =>
    cases script with
    | none => simp only [print_script]
    | some this => simp only [print_script]
  | succ fuel ih =>
    cases script with
    | none => simp only [print_script]
    | some this =>
      simp only [print_script]
      rw [ih]
      exact print_script_step_restores hunkfun printfun store this

end Diffutils
